import Mathlib

/-!
Verification of the message codec in `coapp` (`include/modern-coapp.hpp`).

The development shallowly embeds the C++ codec into Lean:

* byte buffers (`std::vector<uint8_t>`) become `List Nat`, with the byte
  range `< 256` carried as explicit hypotheses where a statement needs it;
* the fixed-width integer fields (`uint8_t`, `uint16_t`, `uint32_t`) become
  `Nat` together with explicit `% 256`, `% 65536`, `% 4294967296` at the
  points where the C++ code stores into such a field;
* `throw invalid_pdu()` becomes the `Except` error `PErr.invalid_pdu`;
* a read through an iterator that may point past `bytes.end()` (undefined
  behaviour in the C++ source) is made observable as the distinct error
  `PErr.oob_read`;
* the `assert` inside `pdu::to_bytes` (which aborts the process, it is not a
  catchable error) is made observable as `EncAbort.assert_failed`.
-/

set_option maxRecDepth 10000

namespace coapp

/-- Decode-time outcome of `pdu::from`: `invalid_pdu` embeds
`throw invalid_pdu()`; `oob_read` marks a dereference of an iterator at or
past `bytes.end()` (undefined behaviour in the C++ source, made observable
here). -/
inductive PErr where
  | invalid_pdu : PErr
  | oob_read : PErr
deriving DecidableEq

/-- Encode-time abort of `pdu::to_bytes`: the C++ `assert(encoded_val <=
std::numeric_limits<uint16_t>::max())` terminates the process when it fires;
it is not a catchable error value. -/
inductive EncAbort where
  | assert_failed : EncAbort
deriving DecidableEq

/-- Embeds `struct option { uint32_t number; std::vector<uint8_t> value; }`. -/
structure option where
  number : Nat
  value : List Nat
deriving DecidableEq

/-- Embeds `class pdu`'s fields, with the C++ member initializers as
default values (`_version { 1 }`, `_type { 0 }`, `_code { 0 }`,
`_message_id { 0 }`, empty token/options/payload). -/
structure pdu where
  version : Nat := 1
  type : Nat := 0
  code : Nat := 0
  message_id : Nat := 0
  token : List Nat := []
  options : List option := []
  payload : List Nat := []
deriving DecidableEq

/-- The default-constructed `pdu()` (all member initializers). -/
def pdu.default : pdu := {}

/-- The header fields extracted by the first part of `pdu::from`. -/
structure Header where
  version : Nat
  type : Nat
  token_length : Nat
  code : Nat
  message_id : Nat
deriving DecidableEq

/-- Embeds the header portion of `pdu::from` (lines 34-52 of
`modern-coapp.hpp`): the `bytes.size() < 4` guard, the extraction of
`_version` (with its store into the `uint8_t` field), the `_version != 1`
and `token_length > 8` checks, and the extraction of `_type`, `_code` and
`_message_id` (stored into `uint8_t` resp. `uint16_t` fields). -/
def parseHeader (bytes : List Nat) : Except PErr Header :=
  match bytes with
  | b0 :: b1 :: b2 :: b3 :: _ =>
    let version := (b0 >>> 6) % 256
    if version ≠ 1 then .error .invalid_pdu
    else
      let ty := (b0 &&& 48) >>> 4
      let token_length := b0 &&& 15
      if token_length > 8 then .error .invalid_pdu
      else .ok ⟨version, ty, token_length, b1 % 256, ((b2 <<< 8) ||| b3) % 65536⟩
  | _ => .error .invalid_pdu

/-- Embeds the lambda `parse_value` inside `pdu::from`.  Given the 4-bit
field value `val` and the bytes following the current descriptor byte, it
returns the resolved value together with the number of extension bytes that
`parse_value` advanced `it` over.  A nibble of 13 reads one extension byte,
14 reads two (big-endian), 15 throws `invalid_pdu`.  The C++ code performs
the extension reads through `*(++it)` with no bounds check, so when the
buffer ends before the extension bytes the read is past `bytes.end()`:
that out-of-bounds dereference is returned as `PErr.oob_read`. -/
def parseValue (val : Nat) (rest : List Nat) : Except PErr (Nat × Nat) :=
  if val = 13 then
    match rest with
    | ext :: _ => .ok (13 + ext, 1)
    | [] => .error .oob_read
  else if val = 14 then
    match rest with
    | hi :: lo :: _ => .ok (269 + ((hi <<< 8) ||| lo), 2)
    | _ => .error .oob_read
  else if val = 15 then .error .invalid_pdu
  else .ok (val, 0)

/-- Embeds the option-parsing `while` loop of `pdu::from` (lines 67-98).
`rest` is the buffer from the current value of `it` to `bytes.end()` and
`num` the running `option_number` (a `uint32_t`, hence the `% 4294967296`
on accumulation).  The loop stops when `it` reaches the end or at a `0xff`
descriptor position; the returned list is the remaining buffer from the
final `it` (empty, or starting with the `0xff` separator).  The
`option_end > bytes.end()` check appears as `r2.length < len`. -/
def parseOpts (rest : List Nat) (num : Nat) : Except PErr (List option × List Nat) :=
  match rest with
  | [] => .ok ([], [])
  | d :: r =>
    if d = 255 then .ok ([], d :: r)
    else
      match parseValue (d >>> 4) r with
      | .error e => .error e
      | .ok (delta, k1) =>
        match parseValue (d &&& 15) (r.drop k1) with
        | .error e => .error e
        | .ok (len, k2) =>
          let r2 := (r.drop k1).drop k2
          if r2.length < len then .error .invalid_pdu
          else
            let num' := (num + delta) % 4294967296
            match parseOpts (r2.drop len) num' with
            | .error e => .error e
            | .ok (opts, rem) => .ok (⟨num', r2.take len⟩ :: opts, rem)
termination_by rest.length
decreasing_by
  simp only [List.length_drop, List.length_cons]
  omega

/-- Embeds `pdu::from`.  After the header, `it` is placed after the
`token_length` token bytes (`it > bytes.end()` throws), then the option
loop runs; a remaining buffer headed by the `0xff` separator yields the
bytes after the separator as payload. -/
def pdu.fromBytes (bytes : List Nat) : Except PErr pdu :=
  match parseHeader bytes with
  | .error e => .error e
  | .ok h =>
    let rest4 := bytes.drop 4
    if rest4.length < h.token_length then .error .invalid_pdu
    else
      let token := rest4.take h.token_length
      let afterTok := rest4.drop h.token_length
      if afterTok.isEmpty then
        .ok ⟨h.version, h.type, h.code, h.message_id, token, [], []⟩
      else
        match parseOpts afterTok 0 with
        | .error e => .error e
        | .ok (opts, rem) =>
          match rem with
          | [] => .ok ⟨h.version, h.type, h.code, h.message_id, token, opts, []⟩
          | _ :: pl => .ok ⟨h.version, h.type, h.code, h.message_id, token, opts, pl⟩

/-- Embeds the lambda `get_nibble` inside `pdu::to_bytes`. -/
def get_nibble (val : Nat) : Nat :=
  if val < 13 then val else if val < 269 then 13 else 14

/-- Embeds the lambda `encode_val` inside `pdu::to_bytes`, returning the
extension bytes it writes.  Its call sites always pass
`nibble = get_nibble val`, so `val ≥ 13` when `nibble = 13` and `val ≥ 269`
in the remaining branch (nibble 14); the `% 256` mirrors the store into a
`uint8_t` buffer element.  When `val - 269` exceeds `0xffff` the C++
`assert` fires and the process aborts: `EncAbort.assert_failed`. -/
def encode_val (nibble val : Nat) : Except EncAbort (List Nat) :=
  if nibble < 13 then .ok []
  else if nibble = 13 then .ok [(val - 13) % 256]
  else
    let encoded_val := val - 269
    if encoded_val ≤ 65535 then .ok [(encoded_val >>> 8) % 256, encoded_val % 256]
    else .error .assert_failed

/-- Embeds the option-emitting loop of `pdu::to_bytes` (lines 154-192),
producing the option bytes in the order the options are stored.  `prev` is
`prev_delta`; `option.number - prev_delta` is computed in `uint32_t`
arithmetic, hence the wrap-around `(4294967296 + number - prev) %
4294967296`. -/
def encodeOptions : List option → Nat → Except EncAbort (List Nat)
  | [], _ => .ok []
  | o :: rest, prev =>
    let option_delta := (4294967296 + o.number - prev) % 4294967296
    let delta_nibble := get_nibble option_delta
    let length_nibble := get_nibble o.value.length
    match encode_val delta_nibble option_delta with
    | .error e => .error e
    | .ok dext =>
      match encode_val length_nibble o.value.length with
      | .error e => .error e
      | .ok lext =>
        match encodeOptions rest o.number with
        | .error e => .error e
        | .ok tail =>
          .ok (((delta_nibble <<< 4) ||| length_nibble) :: (dext ++ lext ++ o.value ++ tail))

/-- Embeds `pdu::to_bytes`.  The C++ code first computes `required_size`
(via `get_size`, which agrees byte-for-byte with what `encode_val` then
writes), allocates the buffer, and fills it; the result equals this
concatenation: 4 header bytes (each stored into a `uint8_t`, hence
`% 256`), the token, the option bytes, then — only when the payload is
non-empty — the `0xff` separator and the payload. -/
def pdu.to_bytes (m : pdu) : Except EncAbort (List Nat) :=
  match encodeOptions m.options 0 with
  | .error e => .error e
  | .ok optbytes =>
    .ok ([((m.version <<< 6) ||| (m.type <<< 4) ||| m.token.length) % 256,
          m.code % 256,
          (m.message_id >>> 8) % 256,
          m.message_id % 256]
         ++ m.token ++ optbytes
         ++ (if m.payload.isEmpty then [] else 255 :: m.payload))

/-- Embeds `pdu::set_type`: the result pairs the post-call object state with
the raised error, if any (`throw invalid_pdu()` when `type > 3` leaves the
object untouched because the check precedes the assignment). -/
def pdu.set_type (m : pdu) (t : Nat) : pdu × Option PErr :=
  if t > 3 then (m, some .invalid_pdu) else ({ m with type := t }, none)

/-- Embeds `pdu::set_token`: throws (leaving the object untouched) when the
token is longer than 8 bytes. -/
def pdu.set_token (m : pdu) (tok : List Nat) : pdu × Option PErr :=
  if tok.length > 8 then (m, some .invalid_pdu) else ({ m with token := tok }, none)

/-- Embeds `pdu::add_option`: an unconditional `push_back` at the end of
`_options`. -/
def pdu.add_option (m : pdu) (o : option) : pdu :=
  { m with options := m.options ++ [o] }

/-- Embeds `pdu::set_payload`. -/
def pdu.set_payload (m : pdu) (p : List Nat) : pdu :=
  { m with payload := p }

/-- Modelled from the repository's alternate header
(`src/unnamed/part_002`): `set_code` stores its `uint8_t`-typed argument
unconditionally (the `% 256` mirrors the parameter type).  The header under
`include/` has no `set_code`; the spec lists it among the mutators. -/
def pdu.set_code (m : pdu) (c : Nat) : pdu :=
  { m with code := c % 256 }

/-- Modelled from the repository's alternate header
(`src/unnamed/part_002`): `set_message_id` stores its `uint16_t`-typed
argument unconditionally. -/
def pdu.set_message_id (m : pdu) (mid : Nat) : pdu :=
  { m with message_id := mid % 65536 }

/-! Bridging lemmas between the bit operations appearing in the source and
ordinary division/remainder arithmetic. -/

theorem and_fifteen (d : Nat) : d &&& 15 = d % 16 := by
  have h := Nat.and_pow_two_sub_one_eq_mod d 4
  norm_num at h
  exact h

theorem and_48_shiftRight (d : Nat) : (d &&& 48) >>> 4 = d / 16 % 4 := by
  apply Nat.eq_of_testBit_eq
  intro i
  simp only [Nat.testBit_shiftRight, Nat.testBit_and]
  rcases i with _ | _ | i
  · simp [Nat.testBit_to_div_mod]
    omega
  · simp [Nat.testBit_to_div_mod]
    omega
  · have h48 : Nat.testBit 48 (4 + (i + 2)) = false := by
      apply Nat.testBit_lt_two_pow
      calc 48 < 2 ^ 6 := by norm_num
      _ ≤ 2 ^ (4 + (i + 2)) := Nat.pow_le_pow_right (by norm_num) (by omega)
    have hm : Nat.testBit (d / 16 % 4) (i + 2) = false := by
      apply Nat.testBit_lt_two_pow
      calc d / 16 % 4 < 4 := Nat.mod_lt _ (by norm_num)
      _ = 2 ^ 2 := by norm_num
      _ ≤ 2 ^ (i + 2) := Nat.pow_le_pow_right (by norm_num) (by omega)
    rw [h48, hm]
    simp

theorem shiftRight_six (d : Nat) : d >>> 6 = d / 64 := by
  have h := Nat.shiftRight_eq_div_pow d 6
  norm_num at h
  exact h

theorem shiftRight_eight (d : Nat) : d >>> 8 = d / 256 := by
  have h := Nat.shiftRight_eq_div_pow d 8
  norm_num at h
  exact h

theorem shiftLeft_eight_or (x y : Nat) (hy : y < 256) : (x <<< 8) ||| y = 256 * x + y := by
  have hy2 : y < 2 ^ 8 := by simpa using hy
  have h := Nat.mul_add_lt_is_or hy2 x
  rw [Nat.shiftLeft_eq]
  norm_num at h ⊢
  rw [Nat.mul_comm x 256]
  omega

theorem shiftRight_four (d : Nat) : d >>> 4 = d / 16 := by
  have h := Nat.shiftRight_eq_div_pow d 4
  norm_num at h
  exact h

theorem nibble_recompose : ∀ d < 256, ((d >>> 4) <<< 4) ||| (d &&& 15) = d := by decide

theorem byte0_recompose :
    ∀ b0 < 256, b0 / 64 = 1 → ((1 <<< 6) ||| ((b0 / 16 % 4) <<< 4) ||| (b0 % 16)) % 256 = b0 := by
  decide

theorem header_byte_value :
    ∀ t ≤ 3, ∀ k ≤ 8, ((1 <<< 6) ||| (t <<< 4) ||| k) % 256 = 64 + 16 * t + k := by
  decide

theorem nibble_pack :
    ∀ dn ≤ 14, ∀ ln ≤ 14, ((dn <<< 4) ||| ln) ≠ 255 ∧ ((dn <<< 4) ||| ln) < 256 ∧
      ((dn <<< 4) ||| ln) >>> 4 = dn ∧ ((dn <<< 4) ||| ln) &&& 15 = ln := by
  decide

theorem get_nibble_le (v : Nat) : get_nibble v ≤ 14 := by
  unfold get_nibble
  split
  · omega
  · split <;> omega

/-! Inversion facts for `parseValue` / `encode_val`: a successfully
resolved nibble re-encodes to exactly the extension bytes it consumed, and
conversely the bytes `encode_val` emits resolve back to the original
value. -/

theorem parseValue_spec (n : Nat) (r : List Nat) (v k : Nat)
    (hn : n ≤ 15) (hb : ∀ x ∈ r, x < 256)
    (h : parseValue n r = .ok (v, k)) :
    get_nibble v = n ∧ v ≤ 65804 ∧ k ≤ r.length ∧
      encode_val n v = .ok (r.take k) := by
  unfold parseValue at h
  split at h
  · -- nibble 13: one extension byte
    rename_i h13
    subst h13
    match r, h with
    | ext :: r', h =>
      have hext : ext < 256 := hb ext (List.mem_cons_self _ _)
      injection h with h
      injection h with hv hk
      subst hv; subst hk
      refine ⟨?_, by omega, by simp, ?_⟩
      · unfold get_nibble
        split
        · omega
        · split
          · rfl
          · omega
      · unfold encode_val
        norm_num
        omega
  · split at h
    · -- nibble 14: two extension bytes, big-endian
      rename_i h14
      subst h14
      match r, h with
      | hi :: lo :: r', h =>
        have hhi : hi < 256 := hb hi (List.mem_cons_self _ _)
        have hlo : lo < 256 := hb lo (List.mem_cons_of_mem _ (List.mem_cons_self _ _))
        injection h with h
        injection h with hv hk
        subst hv; subst hk
        rw [shiftLeft_eight_or hi lo hlo]
        refine ⟨?_, by omega, by simp, ?_⟩
        · unfold get_nibble
          split
          · omega
          · split
            · omega
            · rfl
        · unfold encode_val
          norm_num
          rw [if_pos (by omega : 256 * hi + lo ≤ 65535)]
          rw [shiftRight_eight]
          have e1 : (256 * hi + lo) / 256 % 256 = hi := by omega
          have e2 : (256 * hi + lo) % 256 = lo := by omega
          rw [e1, e2]
    · split at h
      · exact absurd h (by simp)
      · -- literal nibble 0-12
        rename_i h13 h14 h15
        injection h with h
        injection h with hv hk
        subst hv; subst hk
        refine ⟨?_, by omega, by simp, ?_⟩
        · unfold get_nibble
          split
          · rfl
          · omega
        · unfold encode_val
          split
          · simp
          · omega

theorem encode_val_ok_le (v : Nat) (ext : List Nat)
    (h : encode_val (get_nibble v) v = .ok ext) : v ≤ 65804 := by
  by_contra hgt
  push_neg at hgt
  have h1 : get_nibble v = 14 := by
    unfold get_nibble
    rw [if_neg (by omega), if_neg (by omega)]
  rw [h1] at h
  unfold encode_val at h
  rw [if_neg (by omega), if_neg (by omega)] at h
  simp only [if_neg (by omega : ¬v - 269 ≤ 65535)] at h
  exact absurd h (by simp)

theorem encode_parse_val (v : Nat) (s : List Nat) (hv : v ≤ 65804) :
    ∃ ext, encode_val (get_nibble v) v = .ok ext ∧ (∀ x ∈ ext, x < 256) ∧
      parseValue (get_nibble v) (ext ++ s) = .ok (v, ext.length) := by
  unfold get_nibble
  split
  · -- literal 0-12
    rename_i hlt
    refine ⟨[], ?_, by simp, ?_⟩
    · unfold encode_val
      rw [if_pos hlt]
    · unfold parseValue
      rw [if_neg (by omega), if_neg (by omega), if_neg (by omega)]
      rfl
  · split
    · -- one extension byte
      rename_i hge hlt
      refine ⟨[v - 13], ?_, by simp; omega, ?_⟩
      · unfold encode_val
        rw [if_neg (by omega), if_pos rfl]
        have : (v - 13) % 256 = v - 13 := Nat.mod_eq_of_lt (by omega)
        rw [this]
      · unfold parseValue
        rw [if_pos rfl]
        simp
        omega
    · -- two extension bytes
      rename_i hge13 hge269
      refine ⟨[(v - 269) / 256, (v - 269) % 256], ?_, by simp; omega, ?_⟩
      · unfold encode_val
        rw [if_neg (by omega), if_neg (by omega)]
        rw [if_pos (by omega : v - 269 ≤ 65535)]
        rw [shiftRight_eight]
        have : (v - 269) / 256 % 256 = (v - 269) / 256 := Nat.mod_eq_of_lt (by omega)
        rw [this]
      · unfold parseValue
        rw [if_neg (by omega), if_pos rfl]
        simp only [List.cons_append]
        rw [shiftLeft_eight_or _ _ (by omega : (v - 269) % 256 < 256)]
        simp
        omega

/-! One-step unfolding equations for the option-loop parser. -/

theorem parseOpts_nil (num : Nat) : parseOpts [] num = .ok ([], []) := by
  rw [parseOpts]

theorem parseOpts_cons (d : Nat) (r : List Nat) (num : Nat) :
    parseOpts (d :: r) num =
      if d = 255 then .ok ([], d :: r)
      else
        match parseValue (d >>> 4) r with
        | .error e => .error e
        | .ok (delta, k1) =>
          match parseValue (d &&& 15) (r.drop k1) with
          | .error e => .error e
          | .ok (len, k2) =>
            let r2 := (r.drop k1).drop k2
            if r2.length < len then .error .invalid_pdu
            else
              let num' := (num + delta) % 4294967296
              match parseOpts (r2.drop len) num' with
              | .error e => .error e
              | .ok (opts, rem) => .ok (⟨num', r2.take len⟩ :: opts, rem) := by
  rw [parseOpts]

/-- Decode-to-encode direction over the option region: whatever the option
loop accepted re-encodes (from the same running `prev_delta`) to exactly
the bytes it consumed, and the loop can only stop at the end of the buffer
or at a `0xff` boundary byte. -/
theorem parseOpts_enc (fuel : Nat) :
    ∀ (r : List Nat), r.length ≤ fuel → ∀ (num : Nat) (opts : List option) (rem : List Nat),
      (∀ x ∈ r, x < 256) → num < 4294967296 →
      parseOpts r num = .ok (opts, rem) →
      ∃ eb, encodeOptions opts num = .ok eb ∧ r = eb ++ rem ∧
        (rem = [] ∨ ∃ t, rem = 255 :: t) := by
  induction fuel with
  | zero =>
    intro r hr num opts rem hb hnum h
    have hre : r = [] := List.length_eq_zero.mp (by omega)
    subst hre
    rw [parseOpts_nil] at h
    injection h with h
    injection h with h1 h2
    subst h1; subst h2
    exact ⟨[], rfl, by simp, Or.inl rfl⟩
  | succ n ih =>
    intro r hr num opts rem hb hnum h
    match r with
    | [] =>
      rw [parseOpts_nil] at h
      injection h with h
      injection h with h1 h2
      subst h1; subst h2
      exact ⟨[], rfl, by simp, Or.inl rfl⟩
    | d :: r' =>
      have hd : d < 256 := hb d (List.mem_cons_self _ _)
      have hbr : ∀ x ∈ r', x < 256 := fun x hx => hb x (List.mem_cons_of_mem _ hx)
      rw [parseOpts_cons] at h
      by_cases h255 : d = 255
      · rw [if_pos h255] at h
        injection h with h
        injection h with h1 h2
        subst h1; subst h2
        subst h255
        exact ⟨[], rfl, by simp, Or.inr ⟨r', rfl⟩⟩
      · rw [if_neg h255] at h
        split at h
        · exact absurd h (by simp)
        · rename_i delta k1 hpv1
          split at h
          · exact absurd h (by simp)
          · rename_i len k2 hpv2
            simp only [] at h
            split at h
            · exact absurd h (by simp)
            · rename_i hlen
              split at h
              · exact absurd h (by simp)
              · rename_i opts' rem' hrec
                injection h with h
                injection h with h1 h2
                subst h1; subst h2
                -- facts from the two nibble resolutions
                have hn1 : d >>> 4 ≤ 15 := by rw [shiftRight_four]; omega
                have hn2 : d &&& 15 ≤ 15 := by rw [and_fifteen]; omega
                obtain ⟨hg1, hv1, hk1, he1⟩ := parseValue_spec _ _ _ _ hn1 hbr hpv1
                obtain ⟨hg2, hv2, hk2, he2⟩ :=
                  parseValue_spec _ _ _ _ hn2 (fun x hx => hbr x (List.drop_subset _ _ hx)) hpv2
                -- the recursive call, one descriptor byte shorter at least
                have hlrec : (((r'.drop k1).drop k2).drop len).length ≤ n := by
                  simp only [List.length_drop]
                  simp only [List.length_cons] at hr
                  omega
                have hnum' : (num + delta) % 4294967296 < 4294967296 := Nat.mod_lt _ (by omega)
                have hbrec : ∀ x ∈ ((r'.drop k1).drop k2).drop len, x < 256 :=
                  fun x hx => hbr x (List.drop_subset _ _ (List.drop_subset _ _ (List.drop_subset _ _ hx)))
                obtain ⟨eb', henc', hsplit', hrem'⟩ :=
                  ih _ hlrec _ _ _ hbrec hnum' hrec
                -- assemble the encoded entry
                refine ⟨d :: (r'.take k1 ++ ((r'.drop k1).take k2 ++
                  (((r'.drop k1).drop k2).take len ++ eb'))), ?_, ?_, hrem'⟩
                · -- encodeOptions re-emits exactly the consumed bytes
                  rw [encodeOptions]
                  have hdelta : (4294967296 + (num + delta) % 4294967296 - num) % 4294967296 = delta := by
                    omega
                  rw [hdelta]
                  have hvallen : (((r'.drop k1).drop k2).take len).length = len := by
                    simp only [List.length_take]
                    omega
                  rw [hvallen, hg1, hg2, he1, he2, henc']
                  simp only []
                  rw [nibble_recompose d hd]
                  simp [List.append_assoc]
                · -- the consumed bytes re-assemble to the input
                  simp only [List.cons_append]
                  congr 1
                  simp only [List.append_assoc]
                  rw [← hsplit']
                  rw [List.take_append_drop, List.take_append_drop, List.take_append_drop]

/-- Encode-to-decode direction over the option region: bytes emitted by the
option-encoding loop parse back (from the same running `prev_delta`) to the
original options, leaving any `[]` or `0xff`-headed suffix untouched. -/
theorem encodeOptions_dec (opts : List option) :
    ∀ (prev : Nat) (eb rest : List Nat),
      (∀ o ∈ opts, o.number < 4294967296) → prev < 4294967296 →
      encodeOptions opts prev = .ok eb →
      (rest = [] ∨ ∃ t, rest = 255 :: t) →
      parseOpts (eb ++ rest) prev = .ok (opts, rest) := by
  induction opts with
  | nil =>
    intro prev eb rest hn hprev henc hrest
    rw [encodeOptions] at henc
    injection henc with henc
    subst henc
    simp only [List.nil_append]
    rcases hrest with h | ⟨t, h⟩
    · subst h
      rw [parseOpts_nil]
    · subst h
      rw [parseOpts_cons, if_pos rfl]
  | cons o os ih =>
    intro prev eb rest hn hprev henc hrest
    obtain ⟨onum, oval⟩ := o
    have honum : onum < 4294967296 := by
      have := hn _ (List.mem_cons_self _ _)
      simpa using this
    have hnos : ∀ o ∈ os, o.number < 4294967296 :=
      fun o ho => hn o (List.mem_cons_of_mem _ ho)
    rw [encodeOptions] at henc
    simp only [] at henc
    split at henc
    · exact absurd henc (by simp)
    · rename_i dext hde
      split at henc
      · exact absurd henc (by simp)
      · rename_i lext hle
        split at henc
        · exact absurd henc (by simp)
        · rename_i tail htail
          injection henc with henc
          subst henc
          have hΔ : (4294967296 + onum - prev) % 4294967296 ≤ 65804 :=
            encode_val_ok_le _ _ hde
          have hL : oval.length ≤ 65804 := encode_val_ok_le _ _ hle
          obtain ⟨dext', hde', hdb, hdp⟩ :=
            encode_parse_val ((4294967296 + onum - prev) % 4294967296)
              (lext ++ (oval ++ (tail ++ rest))) hΔ
          rw [hde] at hde'
          injection hde' with hde'
          subst hde'
          obtain ⟨lext', hle', hlb, hlp⟩ :=
            encode_parse_val oval.length (oval ++ (tail ++ rest)) hL
          rw [hle] at hle'
          injection hle' with hle'
          subst hle'
          obtain ⟨hne, hlt256, hshr, hand⟩ :=
            nibble_pack _ (get_nibble_le ((4294967296 + onum - prev) % 4294967296))
              _ (get_nibble_le oval.length)
          simp only [List.cons_append, List.append_assoc]
          rw [parseOpts_cons, if_neg hne, hshr, hand, hdp]
          simp only []
          rw [List.drop_left, hlp]
          simp only []
          rw [List.drop_left]
          rw [if_neg (by simp only [List.length_append]; omega)]
          have hnum' : (prev + (4294967296 + onum - prev) % 4294967296) % 4294967296 = onum := by
            omega
          simp only [hnum']
          rw [List.take_left, List.drop_left]
          rw [ih onum tail rest hnos (by omega) htail hrest]

/-- Inversion of a successful header parse: the exact shapes of the input
and the extracted fields. -/
theorem parseHeader_ok (bytes : List Nat) (h : Header)
    (hp : parseHeader bytes = .ok h) :
    ∃ b0 b1 b2 b3 r, bytes = b0 :: b1 :: b2 :: b3 :: r ∧
      (b0 >>> 6) % 256 = 1 ∧ b0 &&& 15 ≤ 8 ∧
      h = ⟨1, (b0 &&& 48) >>> 4, b0 &&& 15, b1 % 256, ((b2 <<< 8) ||| b3) % 65536⟩ := by
  match bytes with
  | [] => exact absurd hp (by simp [parseHeader])
  | [b0] => exact absurd hp (by simp [parseHeader])
  | [b0, b1] => exact absurd hp (by simp [parseHeader])
  | [b0, b1, b2] => exact absurd hp (by simp [parseHeader])
  | b0 :: b1 :: b2 :: b3 :: r =>
    unfold parseHeader at hp
    simp only [] at hp
    split at hp
    · exact absurd hp (by simp)
    · rename_i hver
      split at hp
      · exact absurd hp (by simp)
      · rename_i htkl
        injection hp with hp
        refine ⟨b0, b1, b2, b3, r, rfl, by omega, by omega, ?_⟩
        rw [← hp]
        have : (b0 >>> 6) % 256 = 1 := by omega
        rw [this]

/-- Decode-to-encode round trip at the message level: a successfully
decoded buffer is reproduced byte-for-byte by `to_bytes`, except when the
buffer ends in a bare `0xff` separator, in which case `to_bytes` yields the
buffer without that final byte. -/
theorem fromBytes_toBytes_aux (b : List Nat) (m : pdu) (hb : ∀ x ∈ b, x < 256)
    (h : pdu.fromBytes b = .ok m) :
    pdu.to_bytes m = .ok b ∨
      (m.payload = [] ∧ ∃ e, pdu.to_bytes m = .ok e ∧ b = e ++ [255]) := by
  unfold pdu.fromBytes at h
  cases hph : parseHeader b with
  | error e => rw [hph] at h; exact absurd h (by simp)
  | ok hd =>
    rw [hph] at h
    simp only [] at h
    obtain ⟨b0, b1, b2, b3, r, hbeq, hver, htkl, hfields⟩ := parseHeader_ok b hd hph
    subst hbeq
    subst hfields
    have hb0 : b0 < 256 := hb b0 (by simp)
    have hb1 : b1 < 256 := hb b1 (by simp)
    have hb2 : b2 < 256 := hb b2 (by simp)
    have hb3 : b3 < 256 := hb b3 (by simp)
    have hbr : ∀ x ∈ r, x < 256 := by
      intro x hx
      exact hb x (by simp [hx])
    simp only [List.drop_succ_cons, List.drop_zero] at h
    -- the header fields in arithmetic form
    rw [and_fifteen, and_48_shiftRight] at h
    rw [and_fifteen] at htkl
    have hdiv : b0 / 64 = 1 := by
      rw [shiftRight_six] at hver
      omega
    split at h
    · exact absurd h (by simp)
    · rename_i hlen
      -- common header-byte facts
      have hmid : ((b2 <<< 8) ||| b3) % 65536 = 256 * b2 + b3 := by
        rw [shiftLeft_eight_or _ _ hb3]
        omega
      have hcode : b1 % 256 = b1 := Nat.mod_eq_of_lt hb1
      split at h
      · -- no options, no payload: the buffer ends right after the token
        rename_i hempty
        rw [List.isEmpty_iff, List.drop_eq_nil_iff] at hempty
        injection h with h
        subst h
        left
        unfold pdu.to_bytes
        rw [encodeOptions]
        simp only []
        have htok : List.take (b0 % 16) r = r := List.take_of_length_le hempty
        rw [htok]
        have hlr : r.length = b0 % 16 := by omega
        rw [hlr]
        rw [byte0_recompose b0 hb0 hdiv, hmid, hcode, hcode]
        have e2 : (256 * b2 + b3) >>> 8 % 256 = b2 := by
          rw [shiftRight_eight]
          omega
        have e3 : (256 * b2 + b3) % 256 = b3 := by omega
        rw [e2, e3]
        simp
      · rename_i hne
        cases hpo : parseOpts (List.drop (b0 % 16) r) 0 with
        | error e => rw [hpo] at h; exact absurd h (by simp)
        | ok pr =>
          obtain ⟨opts, rem⟩ := pr
          rw [hpo] at h
          simp only [] at h
          obtain ⟨eb, henc, hsplit, hrem⟩ :=
            parseOpts_enc (List.drop (b0 % 16) r).length _ (le_refl _) _ _ _
              (fun x hx => hbr x (List.drop_subset _ _ hx)) (by omega) hpo
          have htokdrop : r = List.take (b0 % 16) r ++ (eb ++ rem) := by
            rw [← hsplit, List.take_append_drop]
          -- facts shared by all remaining cases
          have hlentok : (List.take (b0 % 16) r).length = b0 % 16 := by
            simp only [List.length_take]
            omega
          have e2 : (256 * b2 + b3) >>> 8 % 256 = b2 := by
            rw [shiftRight_eight]
            omega
          have e3 : (256 * b2 + b3) % 256 = b3 := by omega
          cases rem with
          | nil =>
            simp only [] at h
            injection h with h
            subst h
            left
            unfold pdu.to_bytes
            rw [henc]
            simp only []
            rw [hlentok, byte0_recompose b0 hb0 hdiv, hmid, hcode, hcode, e2, e3]
            simp only [List.isEmpty_nil]
            conv_rhs => rw [htokdrop]
            simp
          | cons sep pl =>
            have hsep : sep = 255 := by
              rcases hrem with h255 | ⟨t, h255⟩
              · exact absurd h255 (by simp)
              · rw [List.cons.injEq] at h255
                exact h255.1
            subst hsep
            simp only [] at h
            injection h with h
            subst h
            by_cases hpl : pl = []
            · subst hpl
              right
              refine ⟨rfl, ?_⟩
              refine ⟨[b0, b1, b2, b3] ++ (List.take (b0 % 16) r ++ eb), ?_, ?_⟩
              · unfold pdu.to_bytes
                rw [henc]
                simp only []
                rw [hlentok, byte0_recompose b0 hb0 hdiv, hmid, hcode, hcode, e2, e3]
                simp
              · conv_lhs => rw [htokdrop]
                simp
            · left
              unfold pdu.to_bytes
              rw [henc]
              simp only []
              rw [hlentok, byte0_recompose b0 hb0 hdiv, hmid, hcode, hcode, e2, e3]
              rw [if_neg (by simpa using hpl)]
              conv_rhs => rw [htokdrop]
              simp

theorem encodeOptions_eq_nil (opts : List option) (prev : Nat)
    (h : encodeOptions opts prev = .ok []) : opts = [] := by
  cases opts with
  | nil => rfl
  | cons o os =>
    rw [encodeOptions] at h
    split at h
    · exact absurd h (by simp)
    · split at h
      · exact absurd h (by simp)
      · split at h
        · exact absurd h (by simp)
        · injection h with h
          exact absurd h (by simp)

/-- The structural validity envelope that the C++ field types and mutators
guarantee for a message built from `pdu()` via the mutators: `_version` is
never touched (stays 1), `set_type` admits only 0-3, `_code` is a
`uint8_t`, `_message_id` a `uint16_t`, `set_token` admits at most 8 bytes,
and option numbers are `uint32_t`. -/
def pdu.WfBuilt (m : pdu) : Prop :=
  m.version = 1 ∧ m.type ≤ 3 ∧ m.code < 256 ∧ m.message_id < 65536 ∧
    m.token.length ≤ 8 ∧ ∀ o ∈ m.options, o.number < 4294967296

/-- Encode-to-decode round trip at the message level, parameterised over
what follows the encoded option region: nothing, or a `0xff` separator and
payload bytes. -/
theorem toBytes_fromBytes_aux (m : pdu) (hwf : pdu.WfBuilt m) (eb : List Nat)
    (henc : encodeOptions m.options 0 = .ok eb) (rest : List Nat)
    (hrest : rest = [] ∨ ∃ t, rest = 255 :: t) :
    pdu.fromBytes ([((m.version <<< 6) ||| (m.type <<< 4) ||| m.token.length) % 256,
        m.code % 256, (m.message_id >>> 8) % 256, m.message_id % 256]
        ++ m.token ++ eb ++ rest)
      = .ok { m with payload := rest.tail } := by
  obtain ⟨hv1, ht3, hc, hmi, htk, hnum⟩ := hwf
  rw [hv1]
  rw [header_byte_value m.type ht3 m.token.length htk]
  unfold pdu.fromBytes
  have hb0 : (64 + 16 * m.type + m.token.length) < 256 := by omega
  have hph : parseHeader ((64 + 16 * m.type + m.token.length) :: m.code % 256 ::
      m.message_id >>> 8 % 256 :: m.message_id % 256 :: (m.token ++ (eb ++ rest))) =
      .ok ⟨1, m.type, m.token.length, m.code, m.message_id⟩ := by
    unfold parseHeader
    simp only []
    rw [shiftRight_six]
    rw [if_neg (by omega)]
    rw [and_fifteen, and_48_shiftRight]
    rw [if_neg (by omega)]
    have e1 : (64 + 16 * m.type + m.token.length) / 16 % 4 = m.type := by omega
    have e2 : (64 + 16 * m.type + m.token.length) % 16 = m.token.length := by omega
    have e3 : m.code % 256 % 256 = m.code := by omega
    have e4 : m.message_id >>> 8 % 256 = m.message_id / 256 := by
      rw [shiftRight_eight]
      omega
    have e5 : (((m.message_id / 256) <<< 8) ||| m.message_id % 256) % 65536 = m.message_id := by
      rw [shiftLeft_eight_or (m.message_id / 256) (m.message_id % 256) (by omega)]
      omega
    have e0 : (64 + 16 * m.type + m.token.length) / 64 % 256 = 1 := by omega
    rw [e0, e1, e2, e3, e4, e5]
  simp only [List.cons_append, List.append_assoc, List.nil_append]
  rw [hph]
  simp only []
  rw [List.drop_succ_cons, List.drop_succ_cons, List.drop_succ_cons, List.drop_succ_cons,
    List.drop_zero]
  rw [if_neg (by simp only [List.length_append]; omega)]
  rw [List.take_left, List.drop_left]
  by_cases hemp : (eb ++ rest : List Nat).isEmpty
  · rw [if_pos hemp]
    rw [List.isEmpty_iff, List.append_eq_nil] at hemp
    obtain ⟨hebnil, hrestnil⟩ := hemp
    subst hebnil
    have hon : m.options = [] := encodeOptions_eq_nil _ _ henc
    subst hrestnil
    rw [hon]
    rfl
  · rw [if_neg hemp]
    rw [encodeOptions_dec m.options 0 eb rest hnum (by omega) henc hrest]
    simp only []
    rcases hrest with hr | ⟨t, hr⟩ <;> subst hr <;> rfl

theorem encode_val_err (v : Nat) (hv : 65804 < v) :
    encode_val (get_nibble v) v = .error .assert_failed := by
  have h1 : get_nibble v = 14 := by
    unfold get_nibble
    rw [if_neg (by omega), if_neg (by omega)]
  rw [h1]
  unfold encode_val
  rw [if_neg (by omega), if_neg (by omega)]
  simp only [if_neg (by omega : ¬v - 269 ≤ 65535)]

/-- Characterises exactly when the option-encoding loop runs to completion:
every wire delta (successive `uint32_t` difference starting from `prev`)
and every value length must fit the two-level extension scheme, i.e. be at
most 65804. -/
def deltas_representable : Nat → List option → Bool
  | _, [] => true
  | prev, o :: rest =>
    (decide ((4294967296 + o.number - prev) % 4294967296 ≤ 65804) &&
      decide (o.value.length ≤ 65804)) &&
    deltas_representable o.number rest

theorem encodeOptions_ok_iff (opts : List option) :
    ∀ prev : Nat,
      (deltas_representable prev opts = true → ∃ eb, encodeOptions opts prev = .ok eb) ∧
      (deltas_representable prev opts = false →
        encodeOptions opts prev = .error .assert_failed) := by
  induction opts with
  | nil =>
    intro prev
    constructor
    · intro _
      exact ⟨[], by rw [encodeOptions]⟩
    · intro hf
      exact absurd hf (by simp [deltas_representable])
  | cons o os ih =>
    intro prev
    constructor
    · intro ht
      rw [deltas_representable] at ht
      simp only [Bool.and_eq_true, decide_eq_true_eq] at ht
      obtain ⟨⟨hΔ, hL⟩, hrest⟩ := ht
      obtain ⟨dext, hde, _, _⟩ := encode_parse_val _ [] hΔ
      obtain ⟨lext, hle, _, _⟩ := encode_parse_val _ [] hL
      obtain ⟨tail, htail⟩ := (ih o.number).1 hrest
      refine ⟨((get_nibble ((4294967296 + o.number - prev) % 4294967296) <<< 4) |||
        get_nibble o.value.length) :: (dext ++ lext ++ o.value ++ tail), ?_⟩
      rw [encodeOptions, hde, hle, htail]
    · intro hf
      rw [encodeOptions]
      by_cases hΔ : (4294967296 + o.number - prev) % 4294967296 ≤ 65804
      · obtain ⟨dext, hde, _, _⟩ := encode_parse_val _ [] hΔ
        rw [hde]
        by_cases hL : o.value.length ≤ 65804
        · obtain ⟨lext, hle, _, _⟩ := encode_parse_val _ [] hL
          rw [hle]
          have hrf : deltas_representable o.number os = false := by
            rw [deltas_representable] at hf
            rcases Bool.and_eq_false_iff.mp hf with h | h
            · rcases Bool.and_eq_false_iff.mp h with h' | h'
              · exact absurd hΔ (by simp_all)
              · exact absurd hL (by simp_all)
            · exact h
          rw [(ih o.number).2 hrf]
        · rw [encode_val_err _ (by omega)]
      · rw [encode_val_err _ (by omega)]

/-! Claim theorems. -/

/-- Claim C1, counterexample: the buffer `[0x40,0,0,0,0xFF]` is a valid
minimal encoding (it contains no extension bytes at all, hence none are
redundant) ending in a bare payload separator; it decodes successfully, but
re-encoding the decoded message yields `[0x40,0,0,0]`, which differs from
the source buffer — so decode-then-encode does not reproduce every minimal
valid encoding. -/
theorem C1_counterexample :
    pdu.fromBytes [64, 0, 0, 0, 255] = .ok ⟨1, 0, 0, 0, [], [], []⟩ ∧
    pdu.to_bytes ⟨1, 0, 0, 0, [], [], []⟩ = .ok [64, 0, 0, 0] ∧
    ([64, 0, 0, 0] : List Nat) ≠ [64, 0, 0, 0, 255] := by
  refine ⟨?_, ?_, by simp⟩
  · simp [pdu.fromBytes, parseHeader, parseOpts, parseValue, and_fifteen, and_48_shiftRight]
  · simp [pdu.to_bytes, encodeOptions]

/-- Claim C1, amended: for every byte buffer `b`, if `pdu::from` succeeds
yielding `m`, then `pdu::to_bytes` on `m` is byte-for-byte equal to `b` —
unless `b` ends in a payload separator followed by no payload bytes, in
which case the decoded payload is empty and `to_bytes m` yields `b` without
that final `0xff` byte. -/
theorem C1_roundtrip (b : List Nat) (m : pdu) (hb : ∀ x ∈ b, x < 256)
    (h : pdu.fromBytes b = .ok m) :
    pdu.to_bytes m = .ok b ∨
      (m.payload = [] ∧ ∃ e, pdu.to_bytes m = .ok e ∧ b = e ++ [255]) :=
  fromBytes_toBytes_aux b m hb h

/-- Witness for C1: the round-trip theorem applied to a concrete buffer
with one option and no separator. -/
theorem C1_roundtrip_witness :
    pdu.to_bytes ⟨1, 2, 2, 256, [], [⟨1, [255]⟩], []⟩ = .ok [96, 2, 1, 0, 17, 255] ∨
      ((⟨1, 2, 2, 256, [], [⟨1, [255]⟩], []⟩ : pdu).payload = [] ∧
        ∃ e, pdu.to_bytes ⟨1, 2, 2, 256, [], [⟨1, [255]⟩], []⟩ = .ok e ∧
          [96, 2, 1, 0, 17, 255] = e ++ [255]) :=
  C1_roundtrip [96, 2, 1, 0, 17, 255] ⟨1, 2, 2, 256, [], [⟨1, [255]⟩], []⟩
    (by decide)
    (by simp [pdu.fromBytes, parseHeader, parseOpts, parseValue, and_fifteen,
      and_48_shiftRight])

/-- The spec §8 scenario message: type 2, code 2, message id 256, five
options added via `add_option` in the order 66077, 5, 1, 2, 273, and the
four-byte payload `BBBB`. -/
def c2_message : pdu :=
  ((((((((pdu.default.set_type 2).1.set_code 2).set_message_id 256).add_option
    ⟨66077, [255, 255, 255]⟩).add_option ⟨5, [255, 255, 255]⟩).add_option
    ⟨1, [255]⟩).add_option ⟨2, [255]⟩).add_option ⟨273, [255, 255, 255]⟩).set_payload
    [66, 66, 66, 66]

/-- The byte sequence the spec requires `encode()` to produce for the
scenario: the options re-ordered ascending (1, 2, 5, 273, 66077) with
correct delta/extension encoding, then `0xFF` and the payload. -/
def c2_target : List Nat :=
  [96, 2, 1, 0,
   17, 255,
   17, 255,
   51, 255, 255, 255,
   211, 255, 255, 255, 255,
   227, 255, 255, 255, 255, 255,
   255, 66, 66, 66, 66]

/-- Claim C2, evaluation at the spec's own scenario: `add_option` is a
plain `push_back`, so the options stay in insertion order (66077, 5, 1, 2,
273); `to_bytes` then computes the first wire delta as 66077, whose
extension value 66077-269 exceeds `0xffff`, so the encode `assert` fires
(the process aborts) and the claimed ascending re-ordered byte sequence is
never produced. -/
theorem C2_add_option_order :
    c2_message.options = [⟨66077, [255, 255, 255]⟩, ⟨5, [255, 255, 255]⟩,
      ⟨1, [255]⟩, ⟨2, [255]⟩, ⟨273, [255, 255, 255]⟩] ∧
    pdu.to_bytes c2_message = .error .assert_failed ∧
    pdu.to_bytes c2_message ≠ .ok c2_target := by
  have h2 : pdu.to_bytes c2_message = .error .assert_failed := by
    simp [c2_message, pdu.default, pdu.set_type, pdu.set_code, pdu.set_message_id,
      pdu.add_option, pdu.set_payload, pdu.to_bytes, encodeOptions, encode_val, get_nibble]
  refine ⟨?_, h2, by rw [h2]; simp⟩
  simp [c2_message, pdu.default, pdu.set_type, pdu.set_code, pdu.set_message_id,
    pdu.add_option, pdu.set_payload]

/-- Claim C4, evaluation at the failing inputs: when the buffer ends before
the extension bytes of a delta nibble of 13 (resp. 14), the decoder
dereferences past `bytes.end()` (undefined behaviour, `oob_read` in this
model) instead of raising the truncation error while resolving the nibble;
by contrast a truncated option *value* and a reserved nibble of 15 are
detected and thrown as `invalid_pdu`. -/
theorem C4_truncated_extension_oob :
    pdu.fromBytes [64, 0, 0, 0, 208] = .error .oob_read ∧
    pdu.fromBytes [64, 0, 0, 0, 225, 7] = .error .oob_read ∧
    pdu.fromBytes [64, 0, 0, 0, 17] = .error .invalid_pdu ∧
    pdu.fromBytes [64, 0, 0, 0, 240] = .error .invalid_pdu := by
  refine ⟨?_, ?_, ?_, ?_⟩ <;>
    simp [pdu.fromBytes, parseHeader, parseOpts, parseValue, and_fifteen,
      and_48_shiftRight]

/-- Claim C6, counterexample: at an option whose delta (70000) exceeds
65804, `to_bytes` fails through the C `assert` — the process aborts
(`assert_failed` is this model's marker for the abort); the code contains
no `ValueTooLarge` error value a caller could catch or match on. -/
theorem C6_counterexample :
    pdu.to_bytes (pdu.default.add_option ⟨70000, []⟩) = .error .assert_failed := by
  simp [pdu.to_bytes, encodeOptions, encode_val, get_nibble, pdu.default, pdu.add_option]

/-- Claim C6, amended: encoding aborts via the `assert` exactly when some
wire delta or value length exceeds 65804; whenever every delta and length
is at most 65804, `to_bytes` always produces a buffer. -/
theorem C6_assert_boundary (m : pdu) :
    (deltas_representable 0 m.options = true → ∃ e, pdu.to_bytes m = .ok e) ∧
    (deltas_representable 0 m.options = false →
      pdu.to_bytes m = .error .assert_failed) := by
  constructor
  · intro h
    obtain ⟨eb, henc⟩ := (encodeOptions_ok_iff m.options 0).1 h
    refine ⟨[((m.version <<< 6) ||| (m.type <<< 4) ||| m.token.length) % 256,
      m.code % 256, (m.message_id >>> 8) % 256, m.message_id % 256]
      ++ m.token ++ eb ++ (if m.payload.isEmpty then [] else 255 :: m.payload), ?_⟩
    unfold pdu.to_bytes
    rw [henc]
  · intro h
    unfold pdu.to_bytes
    rw [(encodeOptions_ok_iff m.options 0).2 h]

/-- Witness for C6: both directions of the boundary theorem at concrete
messages (delta 65804 encodes; delta 65805 aborts). -/
theorem C6_assert_boundary_witness :
    (∃ e, pdu.to_bytes ⟨1, 0, 0, 0, [], [⟨65804, [7]⟩], []⟩ = .ok e) ∧
    pdu.to_bytes ⟨1, 0, 0, 0, [], [⟨65805, [7]⟩], []⟩ = .error .assert_failed :=
  ⟨(C6_assert_boundary ⟨1, 0, 0, 0, [], [⟨65804, [7]⟩], []⟩).1 (by decide),
    (C6_assert_boundary ⟨1, 0, 0, 0, [], [⟨65805, [7]⟩], []⟩).2 (by decide)⟩

/-- Claim C10: the failing mutators are atomic — `set_type` on a value
greater than 3 and `set_token` on a token longer than 8 bytes throw
`invalid_pdu` and leave the message exactly as it was (the check precedes
the assignment in both). -/
theorem C10_mutators_atomic :
    (∀ (m : pdu) (t : Nat), 3 < t → pdu.set_type m t = (m, some PErr.invalid_pdu)) ∧
    (∀ (m : pdu) (tok : List Nat), 8 < tok.length →
      pdu.set_token m tok = (m, some PErr.invalid_pdu)) := by
  constructor
  · intro m t ht
    unfold pdu.set_type
    rw [if_pos ht]
  · intro m tok htok
    unfold pdu.set_token
    rw [if_pos htok]

/-- Witness for C10: both mutators applied to the default message with
out-of-range arguments. -/
theorem C10_mutators_atomic_witness :
    pdu.set_type pdu.default 4 = (pdu.default, some PErr.invalid_pdu) ∧
    pdu.set_token pdu.default [1, 2, 3, 4, 5, 6, 7, 8, 9] =
      (pdu.default, some PErr.invalid_pdu) :=
  ⟨C10_mutators_atomic.1 pdu.default 4 (by decide),
    C10_mutators_atomic.2 pdu.default [1, 2, 3, 4, 5, 6, 7, 8, 9] (by decide)⟩

/-- Claim C3: for every message within the mutator-validity envelope
(version 1, type 0-3, `uint8_t` code, `uint16_t` message id, token of at
most 8 bytes) whose option deltas and value lengths are representable,
`pdu::from (pdu::to_bytes m)` succeeds and equals `m` field for field. -/
theorem C3_decode_encode_id (m : pdu) (hwf : pdu.WfBuilt m)
    (hrep : deltas_representable 0 m.options = true) :
    ∃ e, pdu.to_bytes m = .ok e ∧ pdu.fromBytes e = .ok m := by
  obtain ⟨eb, henc⟩ := (encodeOptions_ok_iff m.options 0).1 hrep
  refine ⟨[((m.version <<< 6) ||| (m.type <<< 4) ||| m.token.length) % 256,
      m.code % 256, (m.message_id >>> 8) % 256, m.message_id % 256]
      ++ m.token ++ eb ++ (if m.payload.isEmpty then [] else 255 :: m.payload), ?_, ?_⟩
  · unfold pdu.to_bytes
    rw [henc]
  · have hside : (if m.payload.isEmpty then [] else 255 :: m.payload) = ([] : List Nat) ∨
        ∃ t, (if m.payload.isEmpty then [] else 255 :: m.payload) = 255 :: t := by
      by_cases hp : m.payload.isEmpty
      · left
        rw [if_pos hp]
      · right
        exact ⟨m.payload, by rw [if_neg hp]⟩
    have haux := toBytes_fromBytes_aux m hwf eb henc
      (if m.payload.isEmpty then [] else 255 :: m.payload) hside
    rw [haux]
    by_cases hp : m.payload.isEmpty
    · rw [List.isEmpty_iff] at hp
      rw [if_pos (by rw [hp]; rfl)]
      have : ({ m with payload := List.tail [] } : pdu) = m := by
        show ({ m with payload := [] } : pdu) = m
        rw [← hp]
      rw [this]
    · rw [if_neg hp]
      rfl

/-- Witness for C3: the round trip at a concrete message with two options
(one with a two-byte-extension delta) and a payload. -/
theorem C3_decode_encode_id_witness :
    ∃ e, pdu.to_bytes ⟨1, 2, 2, 256, [9, 8], [⟨1, [255]⟩, ⟨273, [7]⟩], [66, 66]⟩ = .ok e ∧
      pdu.fromBytes e = .ok ⟨1, 2, 2, 256, [9, 8], [⟨1, [255]⟩, ⟨273, [7]⟩], [66, 66]⟩ :=
  C3_decode_encode_id ⟨1, 2, 2, 256, [9, 8], [⟨1, [255]⟩, ⟨273, [7]⟩], [66, 66]⟩
    (by unfold pdu.WfBuilt
        exact ⟨rfl, by decide, by decide, by decide, by decide, by decide⟩)
    (by decide)

/-- Claim C5: header decoding fails exactly when the buffer is shorter than
4 bytes, the version field (top two bits of byte 0) differs from 1, or the
token-length field (low four bits of byte 0) exceeds 8 — and then the whole
decode fails; otherwise the header parse succeeds and yields version 1,
the type from bits 4-5, the token length from the low nibble, the code from
byte 1 and the big-endian 16-bit message id from bytes 2-3. -/
theorem C5_header_iff (b : List Nat) (hb : ∀ x ∈ b, x < 256) :
    (parseHeader b = .error .invalid_pdu ↔
      (b.length < 4 ∨ b.headD 0 / 64 ≠ 1 ∨ b.headD 0 % 16 > 8)) ∧
    ((b.length < 4 ∨ b.headD 0 / 64 ≠ 1 ∨ b.headD 0 % 16 > 8) →
      pdu.fromBytes b = .error .invalid_pdu) ∧
    (∀ b0 b1 b2 b3 r, b = b0 :: b1 :: b2 :: b3 :: r → b0 / 64 = 1 → b0 % 16 ≤ 8 →
      parseHeader b = .ok ⟨1, b0 / 16 % 4, b0 % 16, b1, 256 * b2 + b3⟩) := by
  match b with
  | [] =>
    refine ⟨by simp [parseHeader], ?_, by simp⟩
    intro _
    simp [pdu.fromBytes, parseHeader]
  | [b0] =>
    refine ⟨by simp [parseHeader], ?_, by simp⟩
    intro _
    simp [pdu.fromBytes, parseHeader]
  | [b0, b1] =>
    refine ⟨by simp [parseHeader], ?_, by simp⟩
    intro _
    simp [pdu.fromBytes, parseHeader]
  | [b0, b1, b2] =>
    refine ⟨by simp [parseHeader], ?_, by simp⟩
    intro _
    simp [pdu.fromBytes, parseHeader]
  | b0 :: b1 :: b2 :: b3 :: r =>
    have hb0 : b0 < 256 := hb b0 (by simp)
    have hb1 : b1 < 256 := hb b1 (by simp)
    have hb2 : b2 < 256 := hb b2 (by simp)
    have hb3 : b3 < 256 := hb b3 (by simp)
    have hv : (b0 >>> 6) % 256 = b0 / 64 := by
      rw [shiftRight_six]
      omega
    have hiff : parseHeader (b0 :: b1 :: b2 :: b3 :: r) = .error .invalid_pdu ↔
        (b0 / 64 ≠ 1 ∨ b0 % 16 > 8) := by
      unfold parseHeader
      simp only []
      rw [hv, and_fifteen]
      constructor
      · intro h
        by_cases h1 : b0 / 64 ≠ 1
        · exact Or.inl h1
        · rw [if_neg h1] at h
          by_cases h2 : b0 % 16 > 8
          · exact Or.inr h2
          · rw [if_neg h2] at h
            exact absurd h (by simp)
      · intro h
        by_cases h1 : b0 / 64 ≠ 1
        · rw [if_pos h1]
        · rw [if_neg h1]
          rcases h with h | h
          · exact absurd h (by simpa using h1)
          · rw [if_pos h]
    refine ⟨?_, ?_, ?_⟩
    · rw [hiff]
      simp only [List.headD_cons, List.length_cons]
      constructor
      · intro h
        exact Or.inr h
      · intro h
        rcases h with h | h
        · omega
        · exact h
    · intro hcond
      have hcond' : b0 / 64 ≠ 1 ∨ b0 % 16 > 8 := by
        simp only [List.headD_cons, List.length_cons] at hcond
        rcases hcond with h | h
        · omega
        · exact h
      unfold pdu.fromBytes
      rw [hiff.mpr hcond']
    · intro c0 c1 c2 c3 s heq hver htkl
      rw [List.cons.injEq, List.cons.injEq, List.cons.injEq, List.cons.injEq] at heq
      obtain ⟨h0, h1, h2, h3, hs⟩ := heq
      subst h0; subst h1; subst h2; subst h3; subst hs
      unfold parseHeader
      simp only []
      rw [hv, and_fifteen, and_48_shiftRight]
      rw [if_neg (by omega), if_neg (by omega)]
      have e3 : b1 % 256 = b1 := by omega
      have e4 : ((b2 <<< 8) ||| b3) % 65536 = 256 * b2 + b3 := by
        rw [shiftLeft_eight_or _ _ hb3]
        omega
      rw [e3, e4]
      rw [hver]

/-- Witness for C5: the theorem applied to the repository's own invalid
header (version 3) and, through the success conjunct, to a valid header. -/
theorem C5_header_iff_witness :
    (parseHeader [192, 0, 0, 0] = .error .invalid_pdu ↔
      (([192, 0, 0, 0] : List Nat).length < 4 ∨
        ([192, 0, 0, 0] : List Nat).headD 0 / 64 ≠ 1 ∨
        ([192, 0, 0, 0] : List Nat).headD 0 % 16 > 8)) ∧
    ((([192, 0, 0, 0] : List Nat).length < 4 ∨
        ([192, 0, 0, 0] : List Nat).headD 0 / 64 ≠ 1 ∨
        ([192, 0, 0, 0] : List Nat).headD 0 % 16 > 8) →
      pdu.fromBytes [192, 0, 0, 0] = .error .invalid_pdu) ∧
    (∀ b0 b1 b2 b3 r, ([192, 0, 0, 0] : List Nat) = b0 :: b1 :: b2 :: b3 :: r →
      b0 / 64 = 1 → b0 % 16 ≤ 8 →
      parseHeader [192, 0, 0, 0] = .ok ⟨1, b0 / 16 % 4, b0 % 16, b1, 256 * b2 + b3⟩) :=
  C5_header_iff [192, 0, 0, 0] (by decide)

/-- Claim C7: the two-level extension scheme resolves a nibble of 0-12
literally, 13 as 13 plus one extension byte, 14 as 269 plus two big-endian
extension bytes, and rejects 15; the boundary values 12, 13, 268, 269 use
0, 1, 1, 2 extension bytes respectively and each round-trips exactly
through `encode_val` and `parseValue`. -/
theorem C7_extension_scheme :
    (∀ (v : Nat) (r : List Nat), v ≤ 12 → parseValue v r = .ok (v, 0)) ∧
    (∀ (x : Nat) (r : List Nat), parseValue 13 (x :: r) = .ok (13 + x, 1)) ∧
    (∀ (x y : Nat) (r : List Nat),
      parseValue 14 (x :: y :: r) = .ok (269 + ((x <<< 8) ||| y), 2)) ∧
    (∀ r : List Nat, parseValue 15 r = .error .invalid_pdu) ∧
    (get_nibble 12 = 12 ∧ encode_val 12 12 = .ok []) ∧
    (get_nibble 13 = 13 ∧ encode_val 13 13 = .ok [0]) ∧
    (get_nibble 268 = 13 ∧ encode_val 13 268 = .ok [255]) ∧
    (get_nibble 269 = 14 ∧ encode_val 14 269 = .ok [0, 0]) ∧
    (∀ s : List Nat, parseValue 12 s = .ok (12, 0)) ∧
    (∀ s : List Nat, parseValue 13 (0 :: s) = .ok (13, 1)) ∧
    (∀ s : List Nat, parseValue 13 (255 :: s) = .ok (268, 1)) ∧
    (∀ s : List Nat, parseValue 14 (0 :: 0 :: s) = .ok (269, 2)) := by
  refine ⟨?_, ?_, ?_, ?_, ⟨by simp [get_nibble], by simp [encode_val]⟩,
    ⟨by simp [get_nibble], by simp [encode_val]⟩,
    ⟨by simp [get_nibble], by simp [encode_val]⟩,
    ⟨by simp [get_nibble], by simp [encode_val]⟩, ?_, ?_, ?_, ?_⟩
  · intro v r hv
    unfold parseValue
    rw [if_neg (by omega), if_neg (by omega), if_neg (by omega)]
  · intro x r
    unfold parseValue
    rw [if_pos rfl]
  · intro x y r
    unfold parseValue
    rw [if_neg (by omega), if_pos rfl]
  · intro r
    unfold parseValue
    rw [if_neg (by omega), if_neg (by omega), if_pos rfl]
  · intro s
    simp [parseValue]
  · intro s
    simp [parseValue]
  · intro s
    simp [parseValue]
  · intro s
    simp [parseValue]

/-- Witness for C7: the literal-nibble conjunct at nibble 5. -/
theorem C7_extension_scheme_witness : parseValue 5 [9, 9] = .ok (5, 0) :=
  C7_extension_scheme.1 5 [9, 9] (by decide)

/-- Claim C8: for any valid message with empty payload, the encoded buffer
ends immediately after the last option with no sentinel and decodes back to
the same message with empty payload; appending a single trailing `0xff`
sentinel with nothing after it also decodes, again to the same message with
empty payload. -/
theorem C8_sentinel_tolerance (m : pdu) (hwf : pdu.WfBuilt m)
    (hrep : deltas_representable 0 m.options = true) (hpl : m.payload = []) :
    ∃ e, pdu.to_bytes m = .ok e ∧ pdu.fromBytes e = .ok m ∧
      pdu.fromBytes (e ++ [255]) = .ok m := by
  obtain ⟨eb, henc⟩ := (encodeOptions_ok_iff m.options 0).1 hrep
  have hmm : ∀ p : List Nat, p = [] → ({ m with payload := p } : pdu) = m := by
    intro p hp
    subst hp
    rw [← hpl]
  refine ⟨[((m.version <<< 6) ||| (m.type <<< 4) ||| m.token.length) % 256,
      m.code % 256, (m.message_id >>> 8) % 256, m.message_id % 256]
      ++ m.token ++ eb, ?_, ?_, ?_⟩
  · unfold pdu.to_bytes
    rw [henc, hpl]
    simp
  · have haux := toBytes_fromBytes_aux m hwf eb henc [] (Or.inl rfl)
    rw [List.append_nil] at haux
    rw [haux]
    rw [hmm (List.tail []) rfl]
  · have haux := toBytes_fromBytes_aux m hwf eb henc [255] (Or.inr ⟨[], rfl⟩)
    rw [haux]
    rw [hmm (List.tail [255]) rfl]

/-- Witness for C8: a concrete message with one option and empty payload. -/
theorem C8_sentinel_tolerance_witness :
    ∃ e, pdu.to_bytes ⟨1, 2, 2, 256, [], [⟨1, [255]⟩], []⟩ = .ok e ∧
      pdu.fromBytes e = .ok ⟨1, 2, 2, 256, [], [⟨1, [255]⟩], []⟩ ∧
      pdu.fromBytes (e ++ [255]) = .ok ⟨1, 2, 2, 256, [], [⟨1, [255]⟩], []⟩ :=
  C8_sentinel_tolerance ⟨1, 2, 2, 256, [], [⟨1, [255]⟩], []⟩
    (by unfold pdu.WfBuilt
        exact ⟨rfl, by decide, by decide, by decide, by decide, by decide⟩)
    (by decide) rfl

/-- Claim C9: a `0xff` byte inside an option is consumed as option data —
here an entry whose delta extension byte, length extension byte and all 268
value bytes are `0xff` parses as one option and the loop continues with the
bytes after it; only a `0xff` at an option-entry boundary stops the loop
and starts the payload. -/
theorem C9_ff_inside_option :
    (∀ (num : Nat) (rest : List Nat),
      parseOpts (221 :: 255 :: 255 :: (List.replicate 268 255 ++ rest)) num =
        (match parseOpts rest ((num + 268) % 4294967296) with
          | .error e => .error e
          | .ok (os, rem) =>
            .ok (⟨(num + 268) % 4294967296, List.replicate 268 255⟩ :: os, rem))) ∧
    (∀ (num : Nat) (rest : List Nat), parseOpts (255 :: rest) num = .ok ([], 255 :: rest)) := by
  constructor
  · intro num rest
    rw [parseOpts_cons]
    rw [if_neg (by omega)]
    have h1 : parseValue (221 >>> 4) (255 :: 255 :: (List.replicate 268 255 ++ rest)) =
        .ok (268, 1) := by
      simp [parseValue]
    have h2 : parseValue (221 &&& 15)
        ((255 :: 255 :: (List.replicate 268 255 ++ rest)).drop 1) = .ok (268, 1) := by
      simp [parseValue, and_fifteen]
    rw [h1]
    simp only []
    rw [h2]
    simp only [List.drop_succ_cons, List.drop_zero]
    rw [if_neg (by simp only [List.length_append, List.length_replicate]; omega)]
    have htake : (List.replicate 268 255 ++ rest).take 268 = List.replicate 268 255 := by
      rw [show (268 : Nat) = (List.replicate 268 (255 : Nat)).length by simp]
      exact List.take_left _ _
    have hdrop : (List.replicate 268 255 ++ rest).drop 268 = rest := by
      rw [show (268 : Nat) = (List.replicate 268 (255 : Nat)).length by simp]
      exact List.drop_left _ _
    rw [htake, hdrop]
  · intro num rest
    rw [parseOpts_cons, if_pos rfl]

end coapp
